import Mathlib

/-!
Verification of the build-target generation engine of this repository
(`chromium/scripts/generate_gn.py` and its unit tests under
`src/arm/third_party/ffmpeg/chromium/scripts/generate_gn_unittest.py`).

The implementation module `generate_gn.py` itself is not shipped in `src/`;
only its unit tests are.  The definitions below are therefore modelled from
the specification's description of the engine, except where the unit tests in
`src/` pin down a different behaviour (they are then modelled from the tests,
and each doc comment says so).
-/

set_option maxHeartbeats 1000000

/-- Modelled from the spec: a Condition is a tuple over the three attributes
architecture, branding (called `target` in the unit tests) and platform, each a
string drawn from a finite domain, or the wildcard string `*`.  The shape
(a triple of strings, compared structurally) is fixed by the unit tests'
`SourceListCondition('ia32', 'Chromium', 'win')` constructors. -/
structure SourceListCondition where
  architecture : String
  target : String
  platform : String
deriving DecidableEq

/-- Modelled from the spec: a SourceSet pairs a finite set of source files with
a finite set of SourceListConditions (`SourceSet(set([...]), set([...]))` in the
unit tests).  File ids are strings. -/
structure SourceSet where
  sources : Finset String
  conditions : Finset SourceListCondition
deriving DecidableEq

/-- Modelled from the spec: `Intersect(a, b)` keeps the common files and unions
the conditions; confirmed verbatim by `testIntersect_Exact`,
`testIntersect_Disjoint` and `testIntersect_Overlap` in the unit tests. -/
def SourceSet.Intersect (a b : SourceSet) : SourceSet :=
  ⟨a.sources ∩ b.sources, a.conditions ∪ b.conditions⟩

/-- Modelled from the spec: `Difference(a, b)` keeps the files of `a` not in
`b`.  The spec's sentence says the conditions are `a.conditions` unchanged, but
the unit tests in `src/` pin a different contract: `testDifference_Disjoint`
expects an empty condition set when the operands share no condition, and
`testDifference_Overlap` expects exactly the shared conditions.  The tests are
the repository's authority, so the conditions are the intersection of both
operands' conditions. -/
def SourceSet.Difference (a b : SourceSet) : SourceSet :=
  ⟨a.sources \ b.sources, a.conditions ∩ b.conditions⟩

/-- Modelled from the spec: the spec defines `IsEmpty(s)` as
`len(s.files) == 0`, but `testDifference_Disjoint` in the unit tests asserts
`IsEmpty` of a set with two files and no conditions, so the tests pin the
contract `len(sources) == 0 or len(conditions) == 0`. -/
def SourceSet.IsEmpty (s : SourceSet) : Bool :=
  s.sources.card == 0 || s.conditions.card == 0

/-- Modelled from the spec: the union of the `files` fields of a list of
SourceSets (used for the portion of a new input set not yet covered by the
working atoms). -/
def unionSources (l : List SourceSet) : Finset String :=
  l.foldr (fun S acc => S.sources ∪ acc) ∅

/-- Modelled from the spec: refining one working atom `A` against the incoming
set `s` produces `Intersect(A, s)` (kept if it has files, conditions unioned)
and `Difference(A, s)` (kept if it has files, conditions of `A` unchanged, as
the spec's partition algorithm prescribes for this piece). -/
def pieces (s A : SourceSet) : List SourceSet :=
  (if (A.sources ∩ s.sources).Nonempty then
    [⟨A.sources ∩ s.sources, A.conditions ∪ s.conditions⟩] else []) ++
  (if (A.sources \ s.sources).Nonempty then
    [⟨A.sources \ s.sources, A.conditions⟩] else [])

/-- Modelled from the spec: one step of the incremental Venn-diagram
atomization.  Every working atom is split along the boundary of the incoming
set `s`, and the portion of `s` not covered by any working atom is added with
the conditions of `s` alone. -/
def AtomizeStep (atoms : List SourceSet) (s : SourceSet) : List SourceSet :=
  (atoms.map (pieces s)).flatten ++
  (if (s.sources \ unionSources atoms).Nonempty then
    [⟨s.sources \ unionSources atoms, s.conditions⟩] else [])

/-- Modelled from the spec: `CreatePairwiseDisjointSets` (the module-level
function of the absent `generate_gn.py`) folds the incremental atomization over
the input list, starting from no atoms.  Its expected input/output behaviour is
pinned by `testCreatePairwiseDisjointSets_Pair`, `_Triplet` and `_Multiple`. -/
def CreatePairwiseDisjointSets (sets : List SourceSet) : List SourceSet :=
  sets.foldl AtomizeStep []

/-- Modelled from the spec: the three condition attributes (`gg.Attr` in the
unit tests). -/
inductive Attr where
  | ARCHITECTURE
  | TARGET
  | PLATFORM
deriving DecidableEq

/-- Modelled from the spec: the list of all attributes, the axes scanned by the
condition reducer. -/
def attrList : List Attr :=
  [Attr.ARCHITECTURE, Attr.TARGET, Attr.PLATFORM]

/-- Modelled from the spec: the wildcard attribute value, written `*` in the
unit tests. -/
def wild : String := "*"

/-- Modelled from the spec: read one attribute of a condition. -/
def getAttr : Attr → SourceListCondition → String
  | Attr.ARCHITECTURE, c => c.architecture
  | Attr.TARGET, c => c.target
  | Attr.PLATFORM, c => c.platform

/-- Modelled from the spec: replace one attribute of a condition. -/
def setAttr : Attr → String → SourceListCondition → SourceListCondition
  | Attr.ARCHITECTURE, v, c => ⟨v, c.target, c.platform⟩
  | Attr.TARGET, v, c => ⟨c.architecture, v, c.platform⟩
  | Attr.PLATFORM, v, c => ⟨c.architecture, c.target, v⟩

/-- Modelled from the spec: a condition `c` covers a configuration `p` when
every attribute of `c` is the wildcard or agrees with `p`. -/
def Covers (c p : SourceListCondition) : Prop :=
  ∀ a ∈ attrList, getAttr a c = wild ∨ getAttr a c = getAttr a p

instance (c p : SourceListCondition) : Decidable (Covers c p) :=
  List.decidableBAll _ attrList

/-- Modelled from the spec: a configuration matches a set of conditions when
some condition of the set covers it. -/
def MatchesSome (S : Finset SourceListCondition) (x : SourceListCondition) : Prop :=
  ∃ d ∈ S, Covers d x

instance (S : Finset SourceListCondition) (x : SourceListCondition) :
    Decidable (MatchesSome S x) :=
  Finset.decidableExistsAndFinset

/-- Modelled from the spec: a combination `r` of values on the non-scanned
axes (represented with the wildcard on the scanned axis `k`) is collapsible
when every domain value of axis `k` is already covered by some condition of
the current set.  Coverage (rather than literal membership) is what makes the
reducer reach the expected two-condition output of the spec's non-collapsing
edge case, as exercised by `testReduceConditions`. -/
def Collapsible (M : Attr → Finset String) (k : Attr)
    (S : Finset SourceListCondition) (r : SourceListCondition) : Prop :=
  ∀ v ∈ M k, ∃ e ∈ S, Covers e (setAttr k v r)

instance (M : Attr → Finset String) (k : Attr) (S : Finset SourceListCondition)
    (r : SourceListCondition) : Decidable (Collapsible M k S r) :=
  Finset.decidableDforallFinset

/-- Modelled from the spec: one scan of axis `k`; every condition whose
other-axes combination is fully spanned is replaced by the wildcard-carrying
condition for that combination. -/
def scanAxis (M : Attr → Finset String) (k : Attr)
    (S : Finset SourceListCondition) : Finset SourceListCondition :=
  S.image (fun c =>
    if Collapsible M k S (setAttr k wild c) then setAttr k wild c else c)

/-- Modelled from the spec: a full pass scans every axis once. -/
def onePass (M : Attr → Finset String)
    (S : Finset SourceListCondition) : Finset SourceListCondition :=
  attrList.foldl (fun T k => scanAxis M k T) S

/-- Modelled from the spec: iterate full passes until no further collapse
occurs (fuel-bounded; the fuel below always suffices for the finite inputs the
engine sees, and every claim proved about the reducer is independent of the
exact fuel). -/
def reduceAux (M : Attr → Finset String) :
    Nat → Finset SourceListCondition → Finset SourceListCondition
  | 0, S => S
  | n + 1, S =>
    if onePass M S = S then S else reduceAux M n (onePass M S)

/-- Modelled from the spec: `ReduceConditionalLogic` minimizes a condition set
into wildcard-carrying conditions denoting exactly the same configurations,
given the support matrix `M` of per-attribute domains. -/
def ReduceConditionalLogic (M : Attr → Finset String)
    (S : Finset SourceListCondition) : Finset SourceListCondition :=
  reduceAux M (3 * S.card + 3) S

/-- Modelled from the spec: a source file path for the collision resolver,
split into its directory components, its extension-stripped basename (the
`stem`, which is what the downstream object-file uniqueness constraint sees)
and its extension.  `dirs = ["a"], stem = "foo", ext = ".c"` stands for the
path `a/foo.c`. -/
structure SourcePath where
  dirs : List String
  stem : String
  extension : String
deriving DecidableEq

/-- Modelled from the spec: the deterministic renamed form of a colliding
file, `autorename_<directory>_<basename>` when the file has directory
components and `autorename_<basename>` at top level, keeping the extension and
the directory; this is the rename shape pinned by
`testFixObjectBasenameCollisions`. -/
def autorenamed (p : SourcePath) : SourcePath :=
  ⟨p.dirs, "autorename_" ++ String.intercalate ("_") (p.dirs ++ [p.stem]),
    p.extension⟩

/-- Modelled from the spec: the scan underlying the collision resolver.  Files
are visited in order; a file whose stem was already seen is renamed to its
`autorenamed` form, a file with a fresh stem keeps its name and reserves the
stem.  (The spec's sentence asks to rename every occurrence of a colliding
basename, but `testFixObjectBasenameCollisions` in `src/` keeps the first
occurrence `foo.c` unrenamed in both of its scenarios, so the tests pin this
first-occurrence-wins behaviour.) -/
def FixAux (used : Finset String) : List SourcePath → List (SourcePath × SourcePath)
  | [] => []
  | p :: ps =>
    if p.stem ∈ used then (p, autorenamed p) :: FixAux used ps
    else FixAux (insert p.stem used) ps

/-- Modelled from the spec: the stems of all files of a list of atoms; used to
make exempt atoms count for collision detection while never being renamed. -/
def stemsOf (l : List (List SourcePath)) : Finset String :=
  (l.flatten.map SourcePath.stem).toFinset

/-- Modelled from the spec: `FixObjectBasenameCollisions` computes the rename
plan for the non-exempt atoms, with the exempt atoms' files reserving their
stems first (left untouched but still counting for collision detection). -/
def FixObjectBasenameCollisions (atoms exempt : List (List SourcePath)) :
    List (SourcePath × SourcePath) :=
  FixAux (stemsOf exempt) atoms.flatten

/-- Support matrix for a fixed Windows platform, as described by the unit
tests (`testReduceConditions` comments: `ia32`, `x64` and `arm64` are all of
the supported architectures for windows, and `Chromium`/`Chrome` the
brandings); the platform axis keeps the full platform domain. -/
def winSupportMatrix : Attr → Finset String
  | Attr.ARCHITECTURE => {"ia32", "x64", "arm64"}
  | Attr.TARGET => {"Chromium", "Chrome"}
  | Attr.PLATFORM => {"win", "linux", "mac", "android"}

/-- The three input SourceSets of `testCreatePairwiseDisjointSets_Triplet`. -/
def testTripletInputs : List SourceSet :=
  [⟨{"common", "intel"}, {⟨"ia32", "Chromium", "win"⟩}⟩,
   ⟨{"common", "intel", "chrome"}, {⟨"x64", "Chrome", "win"⟩}⟩,
   ⟨{"common", "arm"}, {⟨"arm", "Chromium", "win"⟩}⟩]

/-- The condition set of the non-collapsing edge case of the spec (the `d`
set of `testReduceConditions`): all Windows architectures under Chromium plus
the single extra combination (ia32, Chrome). -/
def edgeCaseConditions : Finset SourceListCondition :=
  {⟨"arm64", "Chromium", "win"⟩, ⟨"x64", "Chromium", "win"⟩,
   ⟨"ia32", "Chromium", "win"⟩, ⟨"ia32", "Chrome", "win"⟩}

/-- The atoms of the first scenario of `testFixObjectBasenameCollisions`:
one atom holding `foo.c` and one holding `a/foo.c` and `b/foo.c`. -/
def testCollisionAtoms : List (List SourcePath) :=
  [[⟨[], "foo", ".c"⟩], [⟨["a"], "foo", ".c"⟩, ⟨["b"], "foo", ".c"⟩]]

/-- The loop invariant of the incremental atomization: after the inputs `pre`
have been folded in, the working atoms are nonempty, pairwise disjoint in
files, cover exactly the files of `pre`, never straddle the boundary of any
processed input, and carry as conditions exactly the union of the conditions
of the processed inputs whose files contain them. -/
def AtomInv (pre atoms : List SourceSet) : Prop :=
  (∀ A ∈ atoms, A.sources.Nonempty) ∧
  atoms.Pairwise (fun A B => Disjoint A.sources B.sources) ∧
  unionSources atoms = unionSources pre ∧
  (∀ A ∈ atoms, ∀ S ∈ pre, A.sources ⊆ S.sources ∨ Disjoint A.sources S.sources) ∧
  (∀ A ∈ atoms, ∀ c, c ∈ A.conditions ↔
    ∃ S ∈ pre, A.sources ⊆ S.sources ∧ c ∈ S.conditions)

/-- C6: `Intersect(a, b)` always has files `a.files ∩ b.files` and conditions
`a.conditions ∪ b.conditions`; in particular, when the file intersection is
empty the result still carries the unioned conditions. -/
theorem sourceSet_intersect_spec (a b : SourceSet) :
    (a.Intersect b).sources = a.sources ∩ b.sources ∧
    (a.Intersect b).conditions = a.conditions ∪ b.conditions :=
  ⟨rfl, rfl⟩

theorem unionSources_nil : unionSources [] = ∅ := rfl

theorem unionSources_cons (S : SourceSet) (l : List SourceSet) :
    unionSources (S :: l) = S.sources ∪ unionSources l := rfl

theorem unionSources_append (l₁ l₂ : List SourceSet) :
    unionSources (l₁ ++ l₂) = unionSources l₁ ∪ unionSources l₂ := by
  induction l₁ with
  | nil => simp [unionSources_nil, unionSources_cons]
  | cons S l ih =>
    simp [unionSources_cons, ih, Finset.union_assoc]

theorem mem_unionSources {f : String} {l : List SourceSet} :
    f ∈ unionSources l ↔ ∃ S ∈ l, f ∈ S.sources := by
  induction l with
  | nil => simp [unionSources_nil]
  | cons S l ih => simp [unionSources_cons, ih]

theorem subset_unionSources {A : SourceSet} {l : List SourceSet} (h : A ∈ l) :
    A.sources ⊆ unionSources l := by
  intro f hf
  exact mem_unionSources.mpr ⟨A, h, hf⟩

theorem mem_pieces {s A B : SourceSet} :
    B ∈ pieces s A ↔
      ((A.sources ∩ s.sources).Nonempty ∧
        B = ⟨A.sources ∩ s.sources, A.conditions ∪ s.conditions⟩) ∨
      ((A.sources \ s.sources).Nonempty ∧
        B = ⟨A.sources \ s.sources, A.conditions⟩) := by
  unfold pieces
  split_ifs with h1 h2 h2 <;> simp [h1, h2]

theorem pieces_sources_subset {s A B : SourceSet} (h : B ∈ pieces s A) :
    B.sources ⊆ A.sources := by
  rcases mem_pieces.mp h with ⟨_, rfl⟩ | ⟨_, rfl⟩
  · exact Finset.inter_subset_left
  · exact Finset.sdiff_subset

theorem pieces_sources_nonempty {s A B : SourceSet} (h : B ∈ pieces s A) :
    B.sources.Nonempty := by
  rcases mem_pieces.mp h with ⟨hne, rfl⟩ | ⟨hne, rfl⟩ <;> exact hne

theorem unionSources_pieces (s A : SourceSet) :
    unionSources (pieces s A) = A.sources := by
  unfold pieces
  split_ifs with h1 h2 h2
  · simp only [List.singleton_append, unionSources_cons, unionSources_nil,
      Finset.union_empty]
    rw [Finset.union_comm]
    exact Finset.sdiff_union_inter _ _
  · simp only [List.append_nil, unionSources_cons, unionSources_nil,
      Finset.union_empty]
    rw [Finset.not_nonempty_iff_eq_empty] at h2
    rw [Finset.sdiff_eq_empty_iff_subset] at h2
    exact Finset.inter_eq_left.mpr h2
  · simp only [List.nil_append, unionSources_cons, unionSources_nil,
      Finset.union_empty]
    rw [Finset.not_nonempty_iff_eq_empty, ← Finset.disjoint_iff_inter_eq_empty] at h1
    exact Finset.sdiff_eq_self_of_disjoint h1
  · simp only [List.nil_append, unionSources_nil]
    rw [Finset.not_nonempty_iff_eq_empty] at h1 h2
    have := Finset.sdiff_union_inter A.sources s.sources
    rw [h1, h2] at this
    simpa using this

theorem mem_atomizeStep {atoms : List SourceSet} {s B : SourceSet} :
    B ∈ AtomizeStep atoms s ↔
      (∃ A ∈ atoms, B ∈ pieces s A) ∨
      ((s.sources \ unionSources atoms).Nonempty ∧
        B = ⟨s.sources \ unionSources atoms, s.conditions⟩) := by
  unfold AtomizeStep
  split_ifs with h <;>
    simp [List.mem_append, List.mem_flatten, List.mem_map, h]

theorem pieces_pairwise (s A : SourceSet) :
    (pieces s A).Pairwise (fun X Y => Disjoint X.sources Y.sources) := by
  unfold pieces
  split_ifs <;> simp
  exact Finset.disjoint_of_subset_left Finset.inter_subset_right
    Finset.sdiff_disjoint.symm

theorem pieces_subset_iff {s A B T : SourceSet} (hB : B ∈ pieces s A)
    (hdich : A.sources ⊆ T.sources ∨ Disjoint A.sources T.sources) :
    B.sources ⊆ T.sources ↔ A.sources ⊆ T.sources := by
  constructor
  · intro hBT
    rcases hdich with h | h
    · exact h
    · exfalso
      obtain ⟨f, hf⟩ := pieces_sources_nonempty hB
      exact (Finset.disjoint_left.mp h) (pieces_sources_subset hB hf) (hBT hf)
  · intro hAT
    exact (pieces_sources_subset hB).trans hAT

theorem unionSources_flatten_pieces (s : SourceSet) (atoms : List SourceSet) :
    unionSources ((atoms.map (pieces s)).flatten) = unionSources atoms := by
  induction atoms with
  | nil => simp [unionSources_nil]
  | cons A l ih =>
    simp only [List.map_cons, List.flatten_cons, unionSources_append,
      unionSources_cons, unionSources_pieces, ih]

theorem atomizeStep_inv {pre atoms : List SourceSet} {s : SourceSet}
    (h : AtomInv pre atoms) : AtomInv (pre ++ [s]) (AtomizeStep atoms s) := by
  obtain ⟨hne, hdisj, huni, hdich, hcond⟩ := h
  refine ⟨?_, ?_, ?_, ?_, ?_⟩
  · intro B hB
    rcases mem_atomizeStep.mp hB with ⟨A, hA, hp⟩ | ⟨hl, rfl⟩
    · exact pieces_sources_nonempty hp
    · exact hl
  · unfold AtomizeStep
    rw [List.pairwise_append]
    refine ⟨?_, ?_, ?_⟩
    · rw [List.pairwise_flatten]
      constructor
      · intro l hl
        rw [List.mem_map] at hl
        obtain ⟨A, _, rfl⟩ := hl
        exact pieces_pairwise s A
      · rw [List.pairwise_map]
        refine hdisj.imp ?_
        intro A B hAB x hx y hy
        exact Finset.disjoint_of_subset_left (pieces_sources_subset hx)
          (Finset.disjoint_of_subset_right (pieces_sources_subset hy) hAB)
    · split_ifs <;> simp
    · intro x hx y hy
      rw [List.mem_flatten] at hx
      obtain ⟨l, hl, hxl⟩ := hx
      rw [List.mem_map] at hl
      obtain ⟨A, hA, rfl⟩ := hl
      split_ifs at hy with hleft
      · rw [List.mem_singleton] at hy
        subst hy
        have hxu : x.sources ⊆ unionSources atoms :=
          (pieces_sources_subset hxl).trans (subset_unionSources hA)
        exact Finset.disjoint_of_subset_left hxu Finset.sdiff_disjoint.symm
      · simp at hy
  · unfold AtomizeStep
    rw [unionSources_append, unionSources_flatten_pieces, unionSources_append,
      unionSources_cons, unionSources_nil, Finset.union_empty]
    split_ifs with hleft
    · rw [unionSources_cons, unionSources_nil, Finset.union_empty, huni]
      rw [← huni, Finset.union_sdiff_self_eq_union, huni]
    · rw [Finset.not_nonempty_iff_eq_empty, Finset.sdiff_eq_empty_iff_subset,
        huni] at hleft
      rw [unionSources_nil, Finset.union_empty, huni]
      exact (Finset.union_eq_left.mpr hleft).symm
  · intro B hB T hT
    rw [List.mem_append, List.mem_singleton] at hT
    rcases mem_atomizeStep.mp hB with ⟨A, hA, hp⟩ | ⟨hl, rfl⟩
    · rcases hT with hTpre | rfl
      · rcases hdich A hA T hTpre with hsub | hdis
        · exact Or.inl ((pieces_sources_subset hp).trans hsub)
        · exact Or.inr (Finset.disjoint_of_subset_left (pieces_sources_subset hp) hdis)
      · rcases mem_pieces.mp hp with ⟨h1, rfl⟩ | ⟨h2, rfl⟩
        · exact Or.inl Finset.inter_subset_right
        · exact Or.inr Finset.sdiff_disjoint
    · rcases hT with hTpre | rfl
      · refine Or.inr ?_
        have hTu : T.sources ⊆ unionSources atoms := by
          rw [huni]
          exact subset_unionSources hTpre
        exact (Finset.disjoint_of_subset_left hTu Finset.sdiff_disjoint.symm).symm
      · exact Or.inl Finset.sdiff_subset
  · intro B hB c
    have hsplit : ∀ (P : SourceSet → Prop),
        (∃ S ∈ pre ++ [s], P S) ↔ (∃ S ∈ pre, P S) ∨ P s := by
      intro P
      simp [List.mem_append, or_and_right, exists_or]
    rcases mem_atomizeStep.mp hB with ⟨A, hA, hp⟩ | ⟨hl, rfl⟩
    · have hiff : ∀ T ∈ pre, (B.sources ⊆ T.sources ↔ A.sources ⊆ T.sources) :=
        fun T hT => pieces_subset_iff hp (hdich A hA T hT)
      rcases mem_pieces.mp hp with ⟨h1, hBe⟩ | ⟨h2, hBe⟩
      · rw [hsplit]
        constructor
        · intro hc
          rw [hBe] at hc
          simp only [Finset.mem_union] at hc
          rcases hc with hc | hc
          · obtain ⟨T, hT, hsub, hcT⟩ := (hcond A hA c).mp hc
            exact Or.inl ⟨T, hT, (hiff T hT).mpr hsub, hcT⟩
          · refine Or.inr ⟨?_, hc⟩
            rw [hBe]
            exact Finset.inter_subset_right
        · intro hc
          rw [hBe]
          simp only [Finset.mem_union]
          rcases hc with ⟨T, hT, hsub, hcT⟩ | ⟨_, hc⟩
          · exact Or.inl ((hcond A hA c).mpr ⟨T, hT, (hiff T hT).mp hsub, hcT⟩)
          · exact Or.inr hc
      · rw [hsplit]
        have hnotsub : ¬ B.sources ⊆ s.sources := by
          intro hsub
          obtain ⟨f, hf⟩ := pieces_sources_nonempty hp
          have hfs : f ∈ s.sources := hsub hf
          rw [hBe] at hf
          simp only [Finset.mem_sdiff] at hf
          exact hf.2 hfs
        constructor
        · intro hc
          rw [hBe] at hc
          obtain ⟨T, hT, hsub, hcT⟩ := (hcond A hA c).mp hc
          exact Or.inl ⟨T, hT, (hiff T hT).mpr hsub, hcT⟩
        · intro hc
          rcases hc with ⟨T, hT, hsub, hcT⟩ | ⟨hsub, _⟩
          · rw [hBe]
            exact (hcond A hA c).mpr ⟨T, hT, (hiff T hT).mp hsub, hcT⟩
          · exact absurd hsub hnotsub
    · rw [hsplit]
      have hnotpre : ∀ T ∈ pre,
          ¬ (SourceSet.mk (s.sources \ unionSources atoms) s.conditions).sources
            ⊆ T.sources := by
        intro T hT hsub
        obtain ⟨f, hf⟩ := hl
        have hfT : f ∈ T.sources := hsub hf
        have hfu : f ∈ unionSources atoms := by
          rw [huni]
          exact subset_unionSources hT hfT
        simp only [Finset.mem_sdiff] at hf
        exact hf.2 hfu
      constructor
      · intro hc
        exact Or.inr ⟨Finset.sdiff_subset, hc⟩
      · rintro (⟨T, hT, hsub, _⟩ | ⟨_, hc⟩)
        · exact absurd hsub (hnotpre T hT)
        · exact hc

theorem atomInv_nil : AtomInv [] [] := by
  refine ⟨?_, List.Pairwise.nil, rfl, ?_, ?_⟩ <;> simp

theorem foldl_atomizeStep_inv :
    ∀ (rest pre atoms : List SourceSet),
      AtomInv pre atoms → AtomInv (pre ++ rest) (rest.foldl AtomizeStep atoms)
  | [], pre, atoms, h => by simpa using h
  | s :: rest, pre, atoms, h => by
    have h2 := foldl_atomizeStep_inv rest (pre ++ [s]) _ (atomizeStep_inv (s := s) h)
    simpa [List.append_assoc] using h2

theorem createPairwiseDisjointSets_inv (sets : List SourceSet) :
    AtomInv sets (CreatePairwiseDisjointSets sets) := by
  have h := foldl_atomizeStep_inv sets [] [] atomInv_nil
  simpa [CreatePairwiseDisjointSets] using h

/-- C1: for every list of input SourceSets, `CreatePairwiseDisjointSets`
returns atoms such that (a) a file appears in some input iff it appears in
some atom, and distinct atoms have disjoint files (so every input file lies in
exactly one atom and the union of the atoms equals the union of the inputs),
(b) every atom is contained in or disjoint from every input's files, and
(c) an atom's conditions are exactly the union of the conditions of the inputs
whose files contain the atom's files. -/
theorem createPairwiseDisjointSets_partition_spec (sets : List SourceSet) :
    (∀ f, (∃ S ∈ sets, f ∈ S.sources) ↔
      ∃ A ∈ CreatePairwiseDisjointSets sets, f ∈ A.sources) ∧
    (∀ A ∈ CreatePairwiseDisjointSets sets, ∀ B ∈ CreatePairwiseDisjointSets sets,
      A ≠ B → Disjoint A.sources B.sources) ∧
    (∀ A ∈ CreatePairwiseDisjointSets sets, ∀ S ∈ sets,
      A.sources ⊆ S.sources ∨ Disjoint A.sources S.sources) ∧
    (∀ A ∈ CreatePairwiseDisjointSets sets, ∀ c,
      c ∈ A.conditions ↔ ∃ S ∈ sets, A.sources ⊆ S.sources ∧ c ∈ S.conditions) := by
  obtain ⟨hne, hdisj, huni, hdich, hcond⟩ := createPairwiseDisjointSets_inv sets
  refine ⟨?_, ?_, hdich, hcond⟩
  · intro f
    exact (mem_unionSources.symm.trans (by rw [huni])).trans mem_unionSources
  · intro A hA B hB hAB
    exact (hdisj.forall fun X Y h => Disjoint.symm h) hA hB hAB

theorem createPairwiseDisjointSets_partition_spec_witness :
    ∃ A ∈ CreatePairwiseDisjointSets testTripletInputs, "common" ∈ A.sources :=
  ((createPairwiseDisjointSets_partition_spec testTripletInputs).1 "common").mp
    (by decide)

/-- C7: two input SourceSets with identical (nonempty) file sets collapse into
a single atom whose conditions are the union of both inputs' conditions. -/
theorem createPairwiseDisjointSets_identical_files_collapse
    (a b : SourceSet) (hab : a.sources = b.sources) (hne : a.sources.Nonempty) :
    CreatePairwiseDisjointSets [a, b] =
      [⟨a.sources, a.conditions ∪ b.conditions⟩] := by
  have h1 : AtomizeStep [] a = [⟨a.sources, a.conditions⟩] := by
    unfold AtomizeStep
    simp only [List.map_nil, List.flatten_nil, unionSources_nil,
      Finset.sdiff_empty, List.nil_append]
    rw [if_pos hne]
  have h2 : AtomizeStep [⟨a.sources, a.conditions⟩] b =
      [⟨a.sources, a.conditions ∪ b.conditions⟩] := by
    unfold AtomizeStep
    rw [← hab]
    simp [pieces, unionSources_cons, unionSources_nil, hne]
    rw [← hab]
    simp [Finset.inter_self, Finset.sdiff_self, hne]
  unfold CreatePairwiseDisjointSets
  simp only [List.foldl_cons, List.foldl_nil]
  rw [h1, h2]

theorem createPairwiseDisjointSets_identical_files_collapse_witness :
    CreatePairwiseDisjointSets
        [⟨{"a"}, {⟨"x86", "c", "win"⟩}⟩, ⟨{"a"}, {⟨"x64", "c", "linux"⟩}⟩] =
      [⟨{"a"}, ({⟨"x86", "c", "win"⟩} : Finset SourceListCondition) ∪
        {⟨"x64", "c", "linux"⟩}⟩] :=
  createPairwiseDisjointSets_identical_files_collapse
    ⟨{"a"}, {⟨"x86", "c", "win"⟩}⟩ ⟨{"a"}, {⟨"x64", "c", "linux"⟩}⟩
    rfl (by decide)

/-- C4 counterexample: at the inputs of `testDifference_Disjoint`
(`a = ({a, b}, {(1,2,3)})`, `b = ({c, d}, {(3,4,6)})`), the result of
`Difference` does not keep `a`'s conditions unchanged: its condition set is
empty. -/
theorem difference_keeps_left_conditions_counterexample :
    (SourceSet.Difference ⟨{"a", "b"}, {⟨"1", "2", "3"⟩}⟩
        ⟨{"c", "d"}, {⟨"3", "4", "6"⟩}⟩).conditions ≠
      (SourceSet.mk {"a", "b"} {⟨"1", "2", "3"⟩}).conditions := by
  decide

/-- C4 (amended): `Difference(a, b)` has files `a.files − b.files` and
conditions `a.conditions ∩ b.conditions` — only the conditions shared with
`b` are kept, as the unit tests pin down. -/
theorem sourceSet_difference_spec (a b : SourceSet) :
    (a.Difference b).sources = a.sources \ b.sources ∧
    (a.Difference b).conditions = a.conditions ∩ b.conditions :=
  ⟨rfl, rfl⟩

/-- C5 counterexample: the SourceSet produced by `testDifference_Disjoint`
has two files and no conditions, yet `IsEmpty` is true, so emptiness does not
depend on the files alone. -/
theorem isEmpty_files_only_counterexample :
    (SourceSet.IsEmpty ⟨{"a", "b"}, ∅⟩) = true ∧
      (SourceSet.mk {"a", "b"} ∅).sources ≠ ∅ := by
  decide

/-- C5 (amended): `IsEmpty(s)` is true iff `s` has no files or no
conditions. -/
theorem sourceSet_isEmpty_spec (s : SourceSet) :
    s.IsEmpty = true ↔ (s.sources = ∅ ∨ s.conditions = ∅) := by
  unfold SourceSet.IsEmpty
  rw [Bool.or_eq_true, beq_iff_eq, beq_iff_eq, Finset.card_eq_zero,
    Finset.card_eq_zero]

/-- C10: `Difference(a, b)` always has exactly the shared conditions
`a.conditions ∩ b.conditions`; in particular, when the operands share no
condition the result's condition set is empty whatever its files are. -/
theorem difference_conditions_intersection (a b : SourceSet) :
    (a.Difference b).conditions = a.conditions ∩ b.conditions :=
  rfl

theorem getAttr_setAttr_self (k : Attr) (v : String) (c : SourceListCondition) :
    getAttr k (setAttr k v c) = v := by
  cases k <;> rfl

theorem getAttr_setAttr_of_ne {a k : Attr} (hak : a ≠ k) (v : String)
    (c : SourceListCondition) : getAttr a (setAttr k v c) = getAttr a c := by
  cases k <;> cases a <;> first | rfl | exact absurd rfl hak

theorem setAttr_setAttr (k : Attr) (v w : String) (c : SourceListCondition) :
    setAttr k v (setAttr k w c) = setAttr k v c := by
  cases k <;> rfl

theorem covers_setAttr_wild {c x : SourceListCondition} (k : Attr)
    (h : Covers c x) : Covers (setAttr k wild c) x := by
  intro a ha
  by_cases hak : a = k
  · subst hak
    exact Or.inl (getAttr_setAttr_self a wild c)
  · rw [getAttr_setAttr_of_ne hak]
    exact h a ha

theorem mem_attrList (a : Attr) : a ∈ attrList := by
  cases a <;> simp [attrList]

theorem matchesSome_scanAxis (M : Attr → Finset String) (k : Attr)
    (S : Finset SourceListCondition) (x : SourceListCondition)
    (hx : ∀ a ∈ attrList, getAttr a x ∈ M a) :
    MatchesSome S x ↔ MatchesSome (scanAxis M k S) x := by
  constructor
  · rintro ⟨d, hd, hcov⟩
    refine ⟨if Collapsible M k S (setAttr k wild d) then setAttr k wild d else d,
      Finset.mem_image_of_mem _ hd, ?_⟩
    split_ifs
    · exact covers_setAttr_wild k hcov
    · exact hcov
  · rintro ⟨d, hd, hcov⟩
    rw [scanAxis, Finset.mem_image] at hd
    obtain ⟨c, hc, rfl⟩ := hd
    by_cases hcol : Collapsible M k S (setAttr k wild c)
    · rw [if_pos hcol] at hcov
      obtain ⟨e, he, hecov⟩ := hcol (getAttr k x) (hx k (mem_attrList k))
      refine ⟨e, he, ?_⟩
      intro a ha
      rcases hecov a ha with h1 | h1
      · exact Or.inl h1
      · by_cases hak : a = k
        · subst hak
          rw [h1, setAttr_setAttr, getAttr_setAttr_self]
          exact Or.inr rfl
        · rw [h1, setAttr_setAttr, getAttr_setAttr_of_ne hak]
          rcases hcov a ha with h2 | h2
          · rw [getAttr_setAttr_of_ne hak] at h2
            exact Or.inl h2
          · rw [getAttr_setAttr_of_ne hak] at h2
            exact Or.inr h2
    · rw [if_neg hcol] at hcov
      exact ⟨c, hc, hcov⟩

theorem matchesSome_foldl_scan (M : Attr → Finset String) (x : SourceListCondition)
    (hx : ∀ a ∈ attrList, getAttr a x ∈ M a) :
    ∀ (ks : List Attr) (S : Finset SourceListCondition),
      MatchesSome S x ↔ MatchesSome (ks.foldl (fun T k => scanAxis M k T) S) x
  | [], S => Iff.rfl
  | k :: ks, S => by
    rw [List.foldl_cons]
    exact (matchesSome_scanAxis M k S x hx).trans
      (matchesSome_foldl_scan M x hx ks (scanAxis M k S))

theorem matchesSome_reduceAux (M : Attr → Finset String) (x : SourceListCondition)
    (hx : ∀ a ∈ attrList, getAttr a x ∈ M a) :
    ∀ (n : Nat) (S : Finset SourceListCondition),
      MatchesSome S x ↔ MatchesSome (reduceAux M n S) x
  | 0, S => Iff.rfl
  | n + 1, S => by
    rw [reduceAux]
    split_ifs with h
    · exact Iff.rfl
    · exact (matchesSome_foldl_scan M x hx attrList S).trans
        (matchesSome_reduceAux M x hx n (onePass M S))

/-- C2: `ReduceConditionalLogic` is sound and complete on matches — for every
non-empty condition set over the attribute lattice and every concrete
configuration drawn from the support matrix, the configuration matches some
input condition iff it matches some output condition. -/
theorem reduceConditionalLogic_sound (M : Attr → Finset String)
    (S : Finset SourceListCondition) (_hS : S.Nonempty) (x : SourceListCondition)
    (hx : ∀ a ∈ attrList, getAttr a x ∈ M a) :
    MatchesSome S x ↔ MatchesSome (ReduceConditionalLogic M S) x :=
  matchesSome_reduceAux M x hx (3 * S.card + 3) S

theorem reduceConditionalLogic_sound_witness :
    (({⟨"ia32", "Chromium", "win"⟩} : Finset SourceListCondition).Nonempty ∧
      (∀ a ∈ attrList,
        getAttr a ⟨"ia32", "Chromium", "win"⟩ ∈ winSupportMatrix a)) ∧
    (MatchesSome {⟨"ia32", "Chromium", "win"⟩} ⟨"ia32", "Chromium", "win"⟩ ↔
      MatchesSome
        (ReduceConditionalLogic winSupportMatrix {⟨"ia32", "Chromium", "win"⟩})
        ⟨"ia32", "Chromium", "win"⟩) :=
  ⟨⟨by decide, by decide⟩,
    reduceConditionalLogic_sound winSupportMatrix _ (by decide) _ (by decide)⟩

/-- C3: on the non-collapsing edge case (all Windows architectures under
Chromium plus the single combination (ia32, Chrome)), the reducer does not
collapse to the universal wildcard: it returns exactly the two conditions
`(*, Chromium, win)` and `(ia32, *, win)`, and the output does not match the
configuration `(x64, Chrome, win)`, which was not in the input. -/
theorem reduceConditionalLogic_edge_case :
    ReduceConditionalLogic winSupportMatrix edgeCaseConditions =
      {⟨"*", "Chromium", "win"⟩, ⟨"ia32", "*", "win"⟩} ∧
    ¬ MatchesSome (ReduceConditionalLogic winSupportMatrix edgeCaseConditions)
        ⟨"x64", "Chrome", "win"⟩ := by
  decide

theorem fixAux_shape : ∀ (used : Finset String) (l : List SourcePath)
    (pr : SourcePath × SourcePath), pr ∈ FixAux used l →
      pr.2 = autorenamed pr.1 ∧ pr.1 ∈ l
  | _, [], pr, h => by simp [FixAux] at h
  | used, p :: ps, pr, h => by
    rw [FixAux] at h
    split_ifs at h with hm
    · rcases List.mem_cons.mp h with heq | h2
      · subst heq
        exact ⟨rfl, List.mem_cons_self _ _⟩
      · obtain ⟨h3, h4⟩ := fixAux_shape used ps pr h2
        exact ⟨h3, List.mem_cons_of_mem _ h4⟩
    · obtain ⟨h3, h4⟩ := fixAux_shape _ ps pr h
      exact ⟨h3, List.mem_cons_of_mem _ h4⟩

theorem fixAux_mem_iff : ∀ (used : Finset String) (l : List SourcePath)
    (p : SourcePath),
    ((p, autorenamed p) ∈ FixAux used l ↔
      ∃ l₁ l₂, l = l₁ ++ p :: l₂ ∧
        (p.stem ∈ used ∨ ∃ r ∈ l₁, r.stem = p.stem))
  | used, [], p => by
    constructor
    · intro h
      simp [FixAux] at h
    · rintro ⟨l₁, l₂, hl, _⟩
      have hlen := congrArg List.length hl
      simp at hlen
      omega
  | used, p₀ :: ps, p => by
    rw [FixAux]
    split_ifs with hm
    · rw [List.mem_cons]
      constructor
      · rintro (heq | hmem)
        · have hp : p = p₀ := congrArg Prod.fst heq
          subst hp
          exact ⟨[], ps, rfl, Or.inl hm⟩
        · obtain ⟨l₁, l₂, hl, hcond⟩ := (fixAux_mem_iff used ps p).mp hmem
          subst hl
          refine ⟨p₀ :: l₁, l₂, rfl, ?_⟩
          rcases hcond with h | ⟨r, hr, hrs⟩
          · exact Or.inl h
          · exact Or.inr ⟨r, List.mem_cons_of_mem _ hr, hrs⟩
      · rintro ⟨l₁, l₂, hl, hcond⟩
        cases l₁ with
        | nil =>
          simp only [List.nil_append, List.cons.injEq] at hl
          obtain ⟨hp, _⟩ := hl
          subst hp
          exact Or.inl rfl
        | cons q l₁ =>
          rw [List.cons_append] at hl
          injection hl with h1 h2
          subst h1
          refine Or.inr ((fixAux_mem_iff used ps p).mpr ⟨l₁, l₂, h2, ?_⟩)
          rcases hcond with h | ⟨r, hr, hrs⟩
          · exact Or.inl h
          · rcases List.mem_cons.mp hr with heq | hr2
            · subst heq
              exact Or.inl (hrs ▸ hm)
            · exact Or.inr ⟨r, hr2, hrs⟩
    · constructor
      · intro hmem
        obtain ⟨l₁, l₂, hl, hcond⟩ := (fixAux_mem_iff _ ps p).mp hmem
        subst hl
        refine ⟨p₀ :: l₁, l₂, rfl, ?_⟩
        rcases hcond with h | ⟨r, hr, hrs⟩
        · rcases Finset.mem_insert.mp h with h1 | h1
          · exact Or.inr ⟨p₀, List.mem_cons_self _ _, h1.symm⟩
          · exact Or.inl h1
        · exact Or.inr ⟨r, List.mem_cons_of_mem _ hr, hrs⟩
      · rintro ⟨l₁, l₂, hl, hcond⟩
        cases l₁ with
        | nil =>
          simp only [List.nil_append, List.cons.injEq] at hl
          obtain ⟨hp, _⟩ := hl
          rcases hcond with h | ⟨r, hr, _⟩
          · subst hp
            exact absurd h hm
          · exact absurd hr (List.not_mem_nil r)
        | cons q l₁ =>
          rw [List.cons_append] at hl
          injection hl with h1 h2
          subst h1
          refine (fixAux_mem_iff _ ps p).mpr ⟨l₁, l₂, h2, ?_⟩
          rcases hcond with h | ⟨r, hr, hrs⟩
          · exact Or.inl (Finset.mem_insert_of_mem h)
          · rcases List.mem_cons.mp hr with heq | hr2
            · subst heq
              exact Or.inl (Finset.mem_insert.mpr (Or.inl hrs.symm))
            · exact Or.inr ⟨r, hr2, hrs⟩

/-- C8 counterexample: on the first scenario of
`testFixObjectBasenameCollisions` — atoms `[{foo.c}, {a/foo.c, b/foo.c}]`
with no exempt atoms — the rename plan contains exactly the renames of
`a/foo.c` and `b/foo.c`; the top-level occurrence `foo.c` of the same
colliding basename is NOT renamed, contradicting the claim that every
occurrence of a colliding basename is renamed. -/
theorem fixObjectBasenameCollisions_counterexample :
    FixObjectBasenameCollisions testCollisionAtoms [] =
      [(⟨["a"], "foo", ".c"⟩, ⟨["a"], "autorename_a_foo", ".c"⟩),
       (⟨["b"], "foo", ".c"⟩, ⟨["b"], "autorename_b_foo", ".c"⟩)] := by
  decide

/-- C8 (amended): `FixObjectBasenameCollisions` renames a file `p` (to its
directory-qualified `autorename` form, `autorename_<dirs>_<stem>` with the
extension kept, or `autorename_<stem>` at top level) exactly when some
earlier file in the scan — a file of an exempt atom, or a file occurring
before `p` in the concatenated non-exempt atoms — has the same
extension-stripped basename; the first occurrence of each basename keeps its
name, and nothing else is renamed. -/
theorem fixObjectBasenameCollisions_spec (atoms exempt : List (List SourcePath))
    (p q : SourcePath) :
    (p, q) ∈ FixObjectBasenameCollisions atoms exempt ↔
      (q = autorenamed p ∧ ∃ l₁ l₂, atoms.flatten = l₁ ++ p :: l₂ ∧
        (p.stem ∈ stemsOf exempt ∨ ∃ r ∈ l₁, r.stem = p.stem)) := by
  unfold FixObjectBasenameCollisions
  constructor
  · intro h
    have hs := fixAux_shape _ _ _ h
    have hq : q = autorenamed p := hs.1
    subst hq
    exact ⟨rfl, (fixAux_mem_iff _ _ p).mp h⟩
  · rintro ⟨rfl, hdec⟩
    exact (fixAux_mem_iff _ _ p).mpr hdec
